import Mathlib

/-!
# Post customizations: a model of `input/js/post-customizations.js`

The script holds two DOM-mutation routines, `fixCodeBlockAttributes` and
`subvertingAngularUsingElmishPost`, and the driver `runScripts` that calls the
first and then the second.  The DOM is modelled as a tree of nodes; an element
is addressed by the list of child indices that leads to it from the document
element, and a mutation returns the new tree.
-/

namespace PostCustomizations

/-- An attribute list of an element, in the order of the element's attribute
list: name and value. -/
abbrev Attrs := List (String × String)

/-- A node of the document tree: an element with its qualified name, its
attribute list and its child nodes, or a text node with its data.  Comments and
the other kinds of node are left out: no call of the script reads or writes
them.  The tree does not record the namespace of an element: `fixLoop` takes
every element to have a `dataset`, as every element of a parsed HTML page has,
and `fixLoopOn` is the loop on a document where only some elements have one. -/
inductive Node where
  | element (tagName : String) (attributes : Attrs) (childNodes : List Node)
  | text (data : String)
  deriving Repr

mutual
/-- Equality of nodes is decidable. -/
def Node.decEq : (a b : Node) → Decidable (a = b)
  | .text s, .text s' =>
    if h : s = s' then isTrue (by rw [h]) else isFalse (fun h' => h (by cases h'; rfl))
  | .text _, .element _ _ _ => isFalse (fun h => by cases h)
  | .element _ _ _, .text _ => isFalse (fun h => by cases h)
  | .element t as cs, .element t' as' cs' =>
    if h1 : t = t' then
      if h2 : as = as' then
        match Node.decEqList cs cs' with
        | isTrue h3 => isTrue (by rw [h1, h2, h3])
        | isFalse h3 => isFalse (fun h => h3 (by cases h; rfl))
      else isFalse (fun h => h2 (by cases h; rfl))
    else isFalse (fun h => h1 (by cases h; rfl))
/-- Equality of lists of nodes is decidable. -/
def Node.decEqList : (as bs : List Node) → Decidable (as = bs)
  | [], [] => isTrue rfl
  | [], _ :: _ => isFalse (fun h => by cases h)
  | _ :: _, [] => isFalse (fun h => by cases h)
  | a :: as, b :: bs =>
    match Node.decEq a b with
    | isTrue h1 =>
      match Node.decEqList as bs with
      | isTrue h2 => isTrue (by rw [h1, h2])
      | isFalse h2 => isFalse (fun h => h2 (by cases h; rfl))
    | isFalse h1 => isFalse (fun h => h1 (by cases h; rfl))
end

instance : DecidableEq Node := Node.decEq

/-- The address of a node: the child indices from the document element down to
the node.  The empty path is the document element itself. -/
abbrev Path := List Nat

/-- The value of attribute `k`, as `getAttribute` reads it: the first entry of
that name, or nothing. -/
def getAttr : Attrs → String → Option String
  | [], _ => none
  | (k', v') :: rest, k => if k' = k then some v' else getAttr rest k

/-- The attribute list after `setAttribute(k, v)`: an attribute of that name
keeps its place and takes the new value, otherwise a new attribute is appended
at the end of the list. -/
def setAttr : Attrs → String → String → Attrs
  | [], k, v => [(k, v)]
  | (k', v') :: rest, k, v =>
    if k' = k then (k, v) :: rest else (k', v') :: setAttr rest k v

/-- The node at a path, or nothing when the path leaves the tree. -/
def nodeAt : Node → Path → Option Node
  | n, [] => some n
  | .text _, _ :: _ => none
  | .element _ _ cs, i :: p =>
    match cs[i]? with
    | some c => nodeAt c p
    | none => none

/-- The attribute list of the element at a path. -/
def attrsAt (d : Node) (p : Path) : Option Attrs :=
  match nodeAt d p with
  | some (.element _ as _) => some as
  | _ => none

/-- The tree after `setAttribute(k, v)` on the element at a path (a path that
does not lead to an element changes nothing). -/
def setAttributeAt : Node → Path → String → String → Node
  | .text s, _, _, _ => .text s
  | .element t as cs, [], k, v => .element t (setAttr as k v) cs
  | .element t as cs, i :: p, k, v =>
    match cs[i]? with
    | some c => .element t as (cs.set i (setAttributeAt c p k v))
    | none => .element t as cs

/-- The path of `element.parentElement`: the document element has no parent
element (its parent is the document), every other node has the element one
step up. -/
def parentElement : Path → Option Path
  | [] => none
  | i :: p => some ((i :: p).dropLast)

mutual
/-- The paths of the elements of a tree that satisfy `P`, in document order
(an element before its descendants, children left to right). -/
def select (P : Node → Bool) : Node → List Path
  | .text _ => []
  | .element t as cs =>
    (if P (.element t as cs) then [[]] else []) ++ selectList P cs 0
/-- The selection inside a list of siblings whose first member has index `i`. -/
def selectList (P : Node → Bool) : List Node → Nat → List Path
  | [], _ => []
  | c :: cs, i => (select P c).map (fun p => i :: p) ++ selectList P cs (i + 1)
end

/-- The element has the given qualified name. -/
def hasTagName (name : String) : Node → Bool
  | .element t _ _ => t = name
  | .text _ => false

/-- The element has an `id` attribute with the given value. -/
def hasId (id : String) : Node → Bool
  | .element _ as _ => getAttr as "id" = some id
  | .text _ => false

/-- The collection `document.getElementsByTagName(name)`: the elements of that
name in document order. -/
def getElementsByTagName (d : Node) (name : String) : List Path :=
  select (hasTagName name) d

/-- The element `document.getElementById(id)`: the first element in document
order with that id, or null. -/
def getElementById (d : Node) (id : String) : Option Path :=
  (select (hasId id) d).head?

/-- The read `element.dataset['line']` on the node at a path: the value of the
attribute `data-line`, or undefined. -/
def datasetLine (d : Node) (p : Path) : Option String :=
  match attrsAt d p with
  | some as => getAttr as "data-line"
  | none => none

/-- The outcome of a routine: the document it leaves behind, or the TypeError
it throws. -/
inductive Outcome where
  | ok (d : Node)
  | typeError
  deriving Repr, DecidableEq

/-- The body of the loop of `fixCodeBlockAttributes` run over the elements of a
collection, in order.  `if (element.dataset['line'])` holds for a value that is
present and not the empty string; the assignment reads
`element.parentElement.dataset`, which throws when `parentElement` is null.
The collection is live, but the body only sets attributes, and that leaves the
members of the collection and their order as they are
(`getElementsByTagName_setAttributeAt`). -/
def fixLoop : List Path → Node → Outcome
  | [], d => .ok d
  | element :: rest, d =>
    match datasetLine d element with
    | none => fixLoop rest d
    | some line =>
      if line = "" then fixLoop rest d
      else
        match parentElement element with
        | none => .typeError
        | some parent => fixLoop rest (setAttributeAt d parent "data-line" line)

/-- The routine `fixCodeBlockAttributes`: the loop over
`document.getElementsByTagName('code')`. -/
def fixCodeBlockAttributes (d : Node) : Outcome :=
  fixLoop (getElementsByTagName d "code") d

/-- The loop of `fixCodeBlockAttributes` on a document in which only the
elements picked out by `hasDataset` have a `dataset` property (HTML and SVG
elements have one, an element of another namespace has none).  On an element
without it `element.dataset['line']` reads a property of `undefined` and
throws, and so does the assignment when the parent element is without it. -/
def fixLoopOn (hasDataset : Path → Bool) : List Path → Node → Outcome
  | [], d => .ok d
  | element :: rest, d =>
    if hasDataset element then
      match datasetLine d element with
      | none => fixLoopOn hasDataset rest d
      | some line =>
        if line = "" then fixLoopOn hasDataset rest d
        else
          match parentElement element with
          | none => .typeError
          | some parent =>
            if hasDataset parent then
              fixLoopOn hasDataset rest (setAttributeAt d parent "data-line" line)
            else .typeError
    else .typeError

/-- The routine `fixCodeBlockAttributes` on a document in which only the
elements picked out by `hasDataset` have a `dataset`. -/
def fixCodeBlockAttributesOn (hasDataset : Path → Bool) (d : Node) : Outcome :=
  fixLoopOn hasDataset (getElementsByTagName d "code") d

/-- The step `text()` compared with a string: a text node with that data. -/
def isTextNode (s : String) : Node → Bool
  | .text data => data = s
  | .element _ _ _ => false

/-- The node test and predicate of `span[text()='elmish']`: a `span` element
with a text-node child whose string value is `elmish`. -/
def spanWithText (s : String) : Node → Bool
  | .element t _ cs => t = "span" && cs.any (isTextNode s)
  | .text _ => false

/-- The result of `document.evaluate("//span[text()='elmish']", context, null,
FIRST_ORDERED_NODE_TYPE, null).singleNodeValue`.  The expression starts with
`//`, an absolute location path: it selects from the root of the document that
holds the context node, so the context node does not narrow the search. -/
def evaluateFirst (d : Node) (_context : Path) : Option Path :=
  (select (spanWithText "elmish") d).head?

/-- The routine `subvertingAngularUsingElmishPost`. -/
def subvertingAngularUsingElmishPost (d : Node) : Node :=
  match getElementById d "subverting-angular-treeview" with
  | none => d
  | some treeview =>
    match evaluateFirst d treeview with
    | none => d
    | some n => setAttributeAt d n "style" "color: orange"

/-- The driver `runScripts`: the relocator, then the annotator.  An exception
of the first call leaves the second one not run. -/
def runScripts (d : Node) : Outcome :=
  match fixCodeBlockAttributes d with
  | .typeError => .typeError
  | .ok d1 => .ok (subvertingAngularUsingElmishPost d1)

/-- The value a code element hands to its parent: its `data-line` when the
element is a `code` element and the value is present and not empty. -/
def lineMarker : Node → Option String
  | .element t as _ =>
    if t = "code" then
      match getAttr as "data-line" with
      | some v => if v = "" then none else some v
      | none => none
    else none
  | .text _ => none

/-- The marker of the last child, in document order, that hands one over. -/
def lastLineMarker : List Node → Option String
  | [] => none
  | c :: cs =>
    match lastLineMarker cs with
    | some v => some v
    | none => lineMarker c

/-- The attribute list of a parent once its children have been visited. -/
def relocateAttrs (as : Attrs) (cs : List Node) : Attrs :=
  match lastLineMarker cs with
  | some v => setAttr as "data-line" v
  | none => as

mutual
/-- The relocation described element by element: every element takes the
marker of its last marked code child, read from the tree as it was. -/
def relocated : Node → Node
  | .text s => .text s
  | .element t as cs => .element t (relocateAttrs as cs) (relocatedList cs)
/-- The relocation of a list of siblings. -/
def relocatedList : List Node → List Node
  | [] => []
  | c :: cs => relocated c :: relocatedList cs
end

/-- The paths of the selection that lie below the document element. -/
def below (P : Node → Bool) : Node → List Path
  | .text _ => []
  | .element _ _ cs => selectList P cs 0

/-- The attribute list of a parent after the visit of one child. -/
def handOver (as : Attrs) (c : Node) : Attrs :=
  match lineMarker c with
  | some v => setAttr as "data-line" v
  | none => as

/-- A code element that hands a marker to its parent. -/
def hasLineMarker (n : Node) : Bool :=
  (lineMarker n).isSome

/-- Any element. -/
def isElement : Node → Bool
  | .element _ _ _ => true
  | .text _ => false

/-- The element at `q` holds a copied marker: its `data-line` after the run is
the non-empty `data-line` that one of its code children carried before the
run. -/
def holdsCopy (before after : Node) (q : Path) : Bool :=
  match nodeAt before q, datasetLine after q with
  | some (.element _ _ cs), some v => cs.any (fun c => lineMarker c = some v)
  | _, _ => false

/-- An element with a child that hands a marker over. -/
def hasMarkedChild : Node → Bool
  | .element _ _ cs => (lastLineMarker cs).isSome
  | .text _ => false

/-- The node at a path satisfies `Q`. -/
def satisfiesAt (Q : Node → Bool) (n : Node) (q : Path) : Bool :=
  match nodeAt n q with
  | some m => Q m
  | none => false

/-- A page with two marked code elements in one `pre` and an unmarked code
element in a paragraph. -/
def pageTwoMarkers : Node :=
  .element "html" [] [.element "body" [] [
    .element "pre" [] [
      .element "code" [("data-line", "1")] [.text "a"],
      .element "code" [("data-line", "2")] [.text "b"]],
    .element "p" [] [.element "code" [] [.text "c"]]]]

/-- A page with two listings, one marked code element each, and an unmarked
code element in a paragraph. -/
def pageTwoListings : Node :=
  .element "html" [] [.element "body" [] [
    .element "pre" [] [.element "code" [("data-line", "1")] [.text "a"]],
    .element "pre" [("data-line", "9")] [.element "code" [("data-line", "2-4")] [.text "b"]],
    .element "p" [] [.element "code" [] [.text "c"]]]]

/-- A page with one highlighted listing: `pre > code[data-line="3-5"]`. -/
def pageOneListing : Node :=
  .element "html" [] [.element "body" [] [
    .element "pre" [("class", "language-fsharp")] [
      .element "code" [("data-line", "3-5")] [.text "let x = 1"]]]]

mutual
/-- The tree with the attribute `k` taken off every element: what is left is
the structure, the text and all other attributes, in their order. -/
def withoutAttr (k : String) : Node → Node
  | .text s => .text s
  | .element t as cs => .element t (as.filter (fun a => a.1 ≠ k)) (withoutAttrList k cs)
/-- The same for a list of siblings. -/
def withoutAttrList (k : String) : List Node → List Node
  | [] => []
  | c :: cs => withoutAttr k c :: withoutAttrList k cs
end

/-- A page without any code element. -/
def pageNoCode : Node :=
  .element "html" [] [.element "body" [("data-line", "1")] [
    .element "p" [] [.text "no listing here"]]]

/-- A document whose document element is itself a code element with a marker
(an XHTML fragment served alone, or a tree built by script). -/
def pageRootCode : Node :=
  .element "code" [("data-line", "1")] [
    .element "pre" [] [.element "code" [("data-line", "2")] [.text "x"]]]

/-- A page whose only listing has an empty marker: `pre > code[data-line=""]`. -/
def pageEmptyMarker : Node :=
  .element "html" [] [.element "body" [] [
    .element "pre" [] [.element "code" [("data-line", "")] [.text "let x = 1"]]]]

mutual
/-- The `textContent` of a node: the data of its text descendants, in document
order. -/
def textContent : Node → String
  | .text s => s
  | .element _ _ cs => textContentList cs
/-- The concatenated `textContent` of a list of siblings. -/
def textContentList : List Node → String
  | [] => ""
  | c :: cs => textContent c ++ textContentList cs
end

/-- An element whose whole text is `s`. -/
def hasText (s : String) : Node → Bool
  | .element t as cs => textContent (.element t as cs) = s
  | .text _ => false

/-- An element with a text-node child whose data is `s`. -/
def bearsText (s : String) : Node → Bool
  | .element _ _ cs => cs.any (isTextNode s)
  | .text _ => false

/-- A page without the diagram. -/
def pageNoTreeview : Node :=
  .element "html" [] [.element "body" [] [
    .element "div" [("id", "other")] [.element "span" [] [.text "elmish"]]]]

/-- A page with the diagram and, before it, a `span` with the label outside the
diagram; no label inside the diagram. -/
def pageOutsideSpan : Node :=
  .element "html" [] [.element "body" [] [
    .element "span" [] [.text "elmish"],
    .element "div" [("id", "subverting-angular-treeview")] [
      .element "span" [] [.text "angular"]]]]

/-- A page whose diagram holds the label in a `b` element, next to a `span`
with a similar text. -/
def pageBoldLabel : Node :=
  .element "html" [] [.element "body" [] [
    .element "div" [("id", "subverting-angular-treeview")] [
      .element "b" [] [.text "elmish"],
      .element "span" [] [.text "elmish!"]]]]

/-- A page whose diagram holds the label in a `span`, between two spans with
similar texts. -/
def pageTreeview : Node :=
  .element "html" [] [.element "body" [] [
    .element "p" [] [.text "elmish"],
    .element "div" [("id", "subverting-angular-treeview")] [
      .element "span" [] [.text "elm"],
      .element "span" [("class", "node")] [.text "elmish"],
      .element "span" [] [.text "elmish tree"]]]]

mutual
/-- The comparison `isEqualNode` of the DOM: the same kind of node, the same
name, attribute lists of the same size in which every attribute of the first
has an equal one in the second, and children that are equal in order. -/
def isEqualNode : Node → Node → Bool
  | .text s, .text s' => s = s'
  | .text _, .element _ _ _ => false
  | .element _ _ _, .text _ => false
  | .element t as cs, .element t' as' cs' =>
    t = t' && as.length = as'.length && as.all (fun a => as'.contains a) &&
      isEqualNodeList cs cs'
/-- The comparison of two lists of children, member by member. -/
def isEqualNodeList : List Node → List Node → Bool
  | [], [] => true
  | [], _ :: _ => false
  | _ :: _, [] => false
  | c :: cs, c' :: cs' => isEqualNode c c' && isEqualNodeList cs cs'
end

/-- A page with a marked code element inside a marked code element. -/
def pageNestedCode : Node :=
  .element "html" [] [.element "body" [] [
    .element "pre" [] [
      .element "code" [("data-line", "1")] [
        .element "code" [("data-line", "2")] [.text "x"]]]]]

/-- A page whose diagram label is a `span` that also holds a marked code
element. -/
def pageLabelWithCode : Node :=
  .element "html" [] [.element "body" [] [
    .element "div" [("id", "subverting-angular-treeview")] [
      .element "span" [] [
        .text "elmish",
        .element "code" [("data-line", "1")] [.text "x"]]]]]

/-- A page with a listing and the diagram. -/
def pageListingAndTreeview : Node :=
  .element "html" [] [.element "body" [] [
    .element "pre" [] [.element "code" [("data-line", "3-5")] [.text "let x = 1"]],
    .element "div" [("id", "subverting-angular-treeview")] [
      .element "span" [] [.text "elmish"]]]]

/-! ## Basic facts -/

theorem Node.induction {motive : Node → Prop}
    (text : ∀ s, motive (.text s))
    (element : ∀ t as cs, (∀ c ∈ cs, motive c) → motive (.element t as cs)) :
    ∀ n, motive n := by
  intro n
  refine @Node.rec motive (fun cs => ∀ c ∈ cs, motive c) ?_ ?_ ?_ ?_ n
  · intro t as cs ih
    exact element t as cs ih
  · exact text
  · intro c hc
    cases hc
  · intro c cs hc hcs x hx
    rcases List.mem_cons.mp hx with h | h
    · exact h ▸ hc
    · exact hcs x h

theorem relocatedList_eq_map (cs : List Node) : relocatedList cs = cs.map relocated := by
  induction cs with
  | nil => rfl
  | cons c cs ih => simp [relocatedList, ih]

theorem getAttr_setAttr_same (as : Attrs) (k v : String) :
    getAttr (setAttr as k v) k = some v := by
  induction as with
  | nil => simp [setAttr, getAttr]
  | cons a as ih =>
    obtain ⟨k', v'⟩ := a
    by_cases h : k' = k
    · simp [setAttr, getAttr, h]
    · simp [setAttr, getAttr, h, ih]

theorem getAttr_setAttr_other (as : Attrs) (k v k' : String) (h : k' ≠ k) :
    getAttr (setAttr as k v) k' = getAttr as k' := by
  induction as with
  | nil => simp [setAttr, getAttr, h.symm]
  | cons a as ih =>
    obtain ⟨k1, v1⟩ := a
    by_cases h1 : k1 = k
    · subst h1
      simp [setAttr, getAttr, h.symm]
    · simp [setAttr, getAttr, h1, ih]

theorem setAttr_setAttr_same (as : Attrs) (k v w : String) :
    setAttr (setAttr as k v) k w = setAttr as k w := by
  induction as with
  | nil => simp [setAttr]
  | cons a as ih =>
    obtain ⟨k1, v1⟩ := a
    by_cases h1 : k1 = k
    · simp [setAttr, h1]
    · simp [setAttr, h1, ih]

/-! ## The loop against the element-by-element description -/

theorem fixLoop_append (ps qs : List Path) (d : Node) :
    fixLoop (ps ++ qs) d =
      match fixLoop ps d with
      | .ok d1 => fixLoop qs d1
      | .typeError => .typeError := by
  induction ps generalizing d with
  | nil => simp [fixLoop]
  | cons p ps ih =>
    simp only [List.cons_append, fixLoop]
    cases datasetLine d p with
    | none => simp [ih]
    | some line =>
      by_cases hl : line = ""
      · simp [hl, ih]
      · cases parentElement p with
        | none => simp [hl]
        | some q => simp [hl, ih]

theorem getElem?_middle (pre post : List Node) (c : Node) :
    (pre ++ c :: post)[pre.length]? = some c := by
  induction pre with
  | nil => simp
  | cons a pre ih => simpa using ih

theorem set_middle (pre post : List Node) (c c1 : Node) :
    (pre ++ c :: post).set pre.length c1 = pre ++ c1 :: post := by
  induction pre with
  | nil => rfl
  | cons a pre ih => simp

theorem nodeAt_child (t : String) (as : Attrs) (pre post : List Node) (c : Node) (p : Path) :
    nodeAt (.element t as (pre ++ c :: post)) (pre.length :: p) = nodeAt c p := by
  simp only [nodeAt, getElem?_middle]

theorem datasetLine_child (t : String) (as : Attrs) (pre post : List Node) (c : Node)
    (p : Path) :
    datasetLine (.element t as (pre ++ c :: post)) (pre.length :: p) = datasetLine c p := by
  simp [datasetLine, attrsAt, nodeAt_child]

theorem setAttributeAt_child (t : String) (as : Attrs) (pre post : List Node) (c : Node)
    (p : Path) (k v : String) :
    setAttributeAt (.element t as (pre ++ c :: post)) (pre.length :: p) k v =
      .element t as (pre ++ setAttributeAt c p k v :: post) := by
  simp only [setAttributeAt, getElem?_middle, set_middle]

theorem parentElement_cons (i : Nat) (p : Path) (hp : p ≠ []) :
    parentElement (i :: p) = (parentElement p).map (fun q => i :: q) := by
  cases p with
  | nil => exact absurd rfl hp
  | cons j q => simp [parentElement, List.dropLast]

theorem selectList_ne_nil (P : Node → Bool) (cs : List Node) (i : Nat) :
    ∀ p ∈ selectList P cs i, p ≠ [] := by
  induction cs generalizing i with
  | nil => simp [selectList]
  | cons c cs ih =>
    intro p hp
    simp only [selectList, List.mem_append, List.mem_map] at hp
    rcases hp with ⟨q, _, rfl⟩ | hp
    · simp
    · exact ih _ p hp

/-- The loop over paths that all lie inside one child acts on that child
alone. -/
theorem fixLoop_lift (t : String) (as : Attrs) (pre post : List Node) (ps : List Path)
    (hps : ∀ p ∈ ps, p ≠ []) (c : Node) :
    fixLoop (ps.map (fun p => pre.length :: p)) (.element t as (pre ++ c :: post)) =
      match fixLoop ps c with
      | .ok c1 => .ok (.element t as (pre ++ c1 :: post))
      | .typeError => .typeError := by
  induction ps generalizing c with
  | nil => simp [fixLoop]
  | cons p ps ih =>
    have hp : p ≠ [] := hps p (List.mem_cons_self _ _)
    have hps1 : ∀ q ∈ ps, q ≠ [] := fun q hq => hps q (List.mem_cons_of_mem _ hq)
    simp only [List.map_cons, fixLoop, datasetLine_child]
    cases datasetLine c p with
    | none => simpa using ih hps1 c
    | some line =>
      by_cases hl : line = ""
      · simpa [hl] using ih hps1 c
      · rw [parentElement_cons _ _ hp]
        cases parentElement p with
        | none => simp [hl]
        | some q =>
          simp only [hl, if_false, Option.map_some', setAttributeAt_child]
          exact ih hps1 _

theorem relocateAttrs_cons (as : Attrs) (c : Node) (rest : List Node) :
    relocateAttrs as (c :: rest) = relocateAttrs (handOver as c) rest := by
  unfold relocateAttrs handOver
  simp only [lastLineMarker]
  cases lastLineMarker rest with
  | none => cases lineMarker c <;> rfl
  | some w => cases lineMarker c <;> simp [setAttr_setAttr_same]

theorem fixLoop_child (t : String) (as : Attrs) (pre post : List Node) (c : Node)
    (hc : fixLoop (below (hasTagName "code") c) c = .ok (relocated c)) :
    fixLoop ((select (hasTagName "code") c).map (fun p => pre.length :: p))
        (.element t as (pre ++ c :: post)) =
      .ok (.element t (handOver as c) (pre ++ relocated c :: post)) := by
  have hne : ∀ p ∈ below (hasTagName "code") c, p ≠ [] := by
    cases c with
    | text s => simp [below]
    | element t1 as1 cs1 => exact selectList_ne_nil _ cs1 0
  have hlift := fun as2 => fixLoop_lift t as2 pre post _ hne c
  simp only [hc] at hlift
  cases c with
  | text s =>
    simp [select, fixLoop, handOver, lineMarker, relocated]
  | element t1 as1 cs1 =>
    simp only [below] at hlift
    by_cases h : t1 = "code"
    · subst h
      simp only [select, hasTagName, decide_True, if_true, List.map_append, List.map_cons,
        List.map_nil, List.singleton_append, fixLoop, datasetLine_child]
      simp only [datasetLine, attrsAt, nodeAt, handOver, lineMarker, if_true]
      cases getAttr as1 "data-line" with
      | none => exact hlift as
      | some line =>
        by_cases hl : line = ""
        · simpa [hl] using hlift as
        · simp only [hl, if_false, parentElement, List.dropLast, setAttributeAt]
          exact hlift _
    · have hm : handOver as (.element t1 as1 cs1) = as := by
        simp [handOver, lineMarker, h]
      simp only [select, hasTagName, h, decide_False, List.nil_append, hm]
      simpa using hlift as

theorem fixLoop_children (t : String) (rest : List Node)
    (hrest : ∀ c ∈ rest, fixLoop (below (hasTagName "code") c) c = .ok (relocated c)) :
    ∀ (as : Attrs) (pre : List Node),
      fixLoop (selectList (hasTagName "code") rest pre.length) (.element t as (pre ++ rest)) =
        .ok (.element t (relocateAttrs as rest) (pre ++ relocatedList rest)) := by
  induction rest with
  | nil =>
    intro as pre
    simp [selectList, fixLoop, relocateAttrs, lastLineMarker, relocatedList]
  | cons c rest ih =>
    intro as pre
    have hc := hrest c (List.mem_cons_self _ _)
    have ih1 := ih (fun x hx => hrest x (List.mem_cons_of_mem _ hx)) (handOver as c)
      (pre ++ [relocated c])
    simp only [List.length_append, List.length_singleton, List.append_assoc,
      List.singleton_append] at ih1
    simp only [selectList, fixLoop_append, fixLoop_child t as pre rest c hc, ih1,
      relocateAttrs_cons, relocatedList]

/-- The loop over the code elements below the document element leaves the
relocated tree. -/
theorem fixLoop_below (n : Node) :
    fixLoop (below (hasTagName "code") n) n = .ok (relocated n) := by
  induction n using Node.induction with
  | text s => simp [below, fixLoop, relocated]
  | element t as cs ih =>
    have h := fixLoop_children t cs ih as []
    simpa [below, relocated] using h

/-- The relocator in closed form: it throws exactly when the document element
is itself a code element with a non-empty marker, and otherwise leaves the
relocated tree. -/
theorem fixCodeBlockAttributes_eq (d : Node) :
    fixCodeBlockAttributes d =
      match lineMarker d with
      | some _ => .typeError
      | none => .ok (relocated d) := by
  have hb := fixLoop_below d
  cases d with
  | text s => simp [fixCodeBlockAttributes, getElementsByTagName, select, fixLoop, lineMarker,
      relocated]
  | element t as cs =>
    simp only [below] at hb
    by_cases h : t = "code"
    · subst h
      simp only [fixCodeBlockAttributes, getElementsByTagName, select, hasTagName, decide_True,
        if_true, List.singleton_append, fixLoop, datasetLine, attrsAt, nodeAt, lineMarker]
      cases getAttr as "data-line" with
      | none => simpa using hb
      | some line =>
        by_cases hl : line = ""
        · simpa [hl] using hb
        · simp [hl, parentElement]
    · simp only [fixCodeBlockAttributes, getElementsByTagName, select, hasTagName, h,
        decide_False, List.nil_append, lineMarker]
      simpa using hb

/-! ## Selections and paths -/

theorem mem_selectList_iff (P : Node → Bool) (cs : List Node) (k i : Nat) (q : Path) :
    (i :: q) ∈ selectList P cs k ↔ k ≤ i ∧ ∃ c, cs[i - k]? = some c ∧ q ∈ select P c := by
  induction cs generalizing k with
  | nil => simp [selectList]
  | cons c cs ih =>
    simp only [selectList, List.mem_append, List.mem_map, List.cons.injEq, ih]
    constructor
    · rintro (⟨a, ha, rfl, rfl⟩ | ⟨hk, c1, hc1, hq⟩)
      · exact ⟨le_refl _, c, by simp, ha⟩
      · refine ⟨by omega, c1, ?_, hq⟩
        have : i - k = (i - (k + 1)) + 1 := by omega
        rw [this]
        simpa using hc1
    · rintro ⟨hk, c1, hc1, hq⟩
      by_cases hik : i = k
      · subst hik
        simp only [Nat.sub_self, List.getElem?_cons_zero, Option.some.injEq] at hc1
        subst hc1
        exact Or.inl ⟨q, hq, rfl, rfl⟩
      · refine Or.inr ⟨by omega, c1, ?_, hq⟩
        have : i - k = (i - (k + 1)) + 1 := by omega
        rw [this] at hc1
        simpa using hc1

/-- A path is selected exactly when it leads to an element that satisfies the
predicate. -/
theorem mem_select_iff (P : Node → Bool) (n : Node) :
    ∀ p : Path, p ∈ select P n ↔
      ∃ t as cs, nodeAt n p = some (.element t as cs) ∧ P (.element t as cs) = true := by
  induction n using Node.induction with
  | text s =>
    intro p
    cases p <;> simp [select, nodeAt]
  | element t as cs ih =>
    intro p
    cases p with
    | nil =>
      have hne := selectList_ne_nil P cs 0
      constructor
      · intro h
        simp only [select, List.mem_append] at h
        rcases h with h | h
        · by_cases hP : P (.element t as cs) = true
          · exact ⟨t, as, cs, rfl, hP⟩
          · simp [hP] at h
        · exact absurd rfl (hne _ h)
      · rintro ⟨t1, as1, cs1, h1, h2⟩
        simp only [nodeAt, Option.some.injEq] at h1
        rw [← h1] at h2
        simp [select, h2]
    | cons i q =>
      have hmem : (i :: q) ∈ select P (.element t as cs) ↔ (i :: q) ∈ selectList P cs 0 := by
        simp only [select, List.mem_append]
        constructor
        · rintro (h | h)
          · by_cases hP : P (.element t as cs) = true <;> simp [hP] at h
          · exact h
        · exact Or.inr
      rw [hmem, mem_selectList_iff]
      simp only [Nat.zero_le, true_and, Nat.sub_zero, nodeAt]
      constructor
      · rintro ⟨c, hc, hq⟩
        rw [hc]
        exact (ih c (List.getElem?_mem hc) q).mp hq
      · intro h
        cases hc : cs[i]? with
        | none => simp [hc] at h
        | some c =>
          rw [hc] at h
          exact ⟨c, rfl, (ih c (List.getElem?_mem hc) q).mpr h⟩

theorem nodeAt_relocated (d : Node) (q : Path) :
    nodeAt (relocated d) q = (nodeAt d q).map relocated := by
  induction q generalizing d with
  | nil => simp [nodeAt]
  | cons i q ih =>
    cases d with
    | text s => simp [nodeAt, relocated]
    | element t as cs =>
      simp only [relocated, nodeAt, relocatedList_eq_map, List.getElem?_map]
      cases cs[i]? with
      | none => simp
      | some c => simpa using ih c

theorem attrsAt_relocated (d : Node) (q : Path) (t : String) (as : Attrs) (cs : List Node)
    (h : nodeAt d q = some (.element t as cs)) :
    attrsAt (relocated d) q = some (relocateAttrs as cs) := by
  simp [attrsAt, nodeAt_relocated, h, relocated]

/-! ## The relocator -/

theorem lineMarker_eq_none_of_parents (d : Node)
    (hparent : ∀ p ∈ getElementsByTagName d "code", parentElement p ≠ none) :
    lineMarker d = none := by
  cases d with
  | text s => rfl
  | element t as cs =>
    by_cases h : t = "code"
    · have hmem : ([] : Path) ∈ getElementsByTagName (.element t as cs) "code" := by
        simp [getElementsByTagName, select, hasTagName, h]
      exact absurd rfl (hparent [] hmem)
    · simp [lineMarker, h]

theorem fixCodeBlockAttributes_of_parents (d : Node)
    (hparent : ∀ p ∈ getElementsByTagName d "code", parentElement p ≠ none) :
    fixCodeBlockAttributes d = .ok (relocated d) := by
  rw [fixCodeBlockAttributes_eq, lineMarker_eq_none_of_parents d hparent]

theorem lastLineMarker_eq_none (cs : List Node) (h : ∀ c ∈ cs, lineMarker c = none) :
    lastLineMarker cs = none := by
  induction cs with
  | nil => rfl
  | cons c cs ih =>
    simp only [lastLineMarker]
    rw [ih (fun x hx => h x (List.mem_cons_of_mem _ hx))]
    exact h c (List.mem_cons_self _ _)

theorem lastLineMarker_eq_some (cs : List Node) (i : Nat) (c : Node) (v : String)
    (hi : cs[i]? = some c) (hc : lineMarker c = some v)
    (hlast : ∀ j c1, i < j → cs[j]? = some c1 → lineMarker c1 = none) :
    lastLineMarker cs = some v := by
  induction cs generalizing i with
  | nil => simp at hi
  | cons a rest ih =>
    simp only [lastLineMarker]
    cases i with
    | zero =>
      simp only [List.getElem?_cons_zero, Option.some.injEq] at hi
      subst hi
      have hnone : lastLineMarker rest = none := by
        apply lastLineMarker_eq_none
        intro x hx
        obtain ⟨j, hj⟩ := List.getElem?_of_mem hx
        exact hlast (j + 1) x (Nat.succ_pos j) (by simpa using hj)
      rw [hnone]
      exact hc
    | succ i =>
      have hi1 : rest[i]? = some c := by simpa using hi
      have hl : ∀ j c1, i < j → rest[j]? = some c1 → lineMarker c1 = none :=
        fun j c1 hj hc1 => hlast (j + 1) c1 (by omega) (by simpa using hc1)
      rw [ih i hi1 hl]

theorem lastLineMarker_some_mem (cs : List Node) (v : String)
    (h : lastLineMarker cs = some v) :
    ∃ (i : Nat) (c : Node), cs[i]? = some c ∧ lineMarker c = some v := by
  induction cs with
  | nil => simp [lastLineMarker] at h
  | cons a rest ih =>
    simp only [lastLineMarker] at h
    cases hr : lastLineMarker rest with
    | none =>
      rw [hr] at h
      exact ⟨0, a, by simp, h⟩
    | some w =>
      rw [hr] at h
      simp only [Option.some.injEq] at h
      subst h
      obtain ⟨i, c, hi, hc⟩ := ih hr
      exact ⟨i + 1, c, by simpa using hi, hc⟩

/-- C1: in a document where every code element has a parent element, the
relocator completes, and every element that is the parent of a code element
with a non-empty `data-line` ends with, as its own `data-line`, the value that
its last such code child carried before the run, unchanged. -/
theorem C1_parent_takes_marker_of_last_code_child (d : Node)
    (hparent : ∀ p ∈ getElementsByTagName d "code", parentElement p ≠ none)
    (q : Path) (t : String) (as : Attrs) (cs : List Node)
    (hq : nodeAt d q = some (.element t as cs))
    (i : Nat) (c : Node) (v : String)
    (hi : cs[i]? = some c) (hc : lineMarker c = some v)
    (hlast : ∀ j c1, i < j → cs[j]? = some c1 → lineMarker c1 = none) :
    ∃ d1, fixCodeBlockAttributes d = .ok d1 ∧ datasetLine d1 q = some v := by
  refine ⟨relocated d, fixCodeBlockAttributes_of_parents d hparent, ?_⟩
  have hl := lastLineMarker_eq_some cs i c v hi hc hlast
  simp [datasetLine, attrsAt_relocated d q t as cs hq, relocateAttrs, hl, getAttr_setAttr_same]

/-- C1, witness: the page with one listing, `pre > code[data-line="3-5"]`. -/
theorem C1_witness :
    ∃ d1, fixCodeBlockAttributes pageOneListing = .ok d1 ∧
      datasetLine d1 [0, 0] = some "3-5" :=
  C1_parent_takes_marker_of_last_code_child pageOneListing (by decide) [0, 0] "pre"
    [("class", "language-fsharp")] [.element "code" [("data-line", "3-5")] [.text "let x = 1"]]
    rfl 0 (.element "code" [("data-line", "3-5")] [.text "let x = 1"]) "3-5" rfl rfl
    (fun j c1 hj h => by
      cases j with
      | zero => exact absurd hj (Nat.lt_irrefl 0)
      | succ j => simp at h)

theorem withoutAttrList_eq_map (k : String) (cs : List Node) :
    withoutAttrList k cs = cs.map (withoutAttr k) := by
  induction cs with
  | nil => rfl
  | cons c cs ih => simp [withoutAttrList, ih]

theorem filter_setAttr (as : Attrs) (k v : String) :
    (setAttr as k v).filter (fun a => a.1 ≠ k) = as.filter (fun a => a.1 ≠ k) := by
  induction as with
  | nil => simp [setAttr]
  | cons a as ih =>
    obtain ⟨k1, v1⟩ := a
    by_cases h1 : k1 = k
    · simp [setAttr, h1]
    · have ih1 := ih
      simp only [ne_eq, decide_not] at ih1
      simp [setAttr, h1, ih1]

theorem withoutAttr_relocated (d : Node) :
    withoutAttr "data-line" (relocated d) = withoutAttr "data-line" d := by
  induction d using Node.induction with
  | text s => rfl
  | element t as cs ih =>
    have hcs : (cs.map relocated).map (withoutAttr "data-line") =
        cs.map (withoutAttr "data-line") := by
      rw [List.map_map]
      exact List.map_congr_left (fun c hc => ih c hc)
    have has : (relocateAttrs as cs).filter (fun a => a.1 ≠ "data-line") =
        as.filter (fun a => a.1 ≠ "data-line") := by
      unfold relocateAttrs
      cases lastLineMarker cs with
      | none => rfl
      | some v => exact filter_setAttr as _ v
    simp only [relocated, withoutAttr, withoutAttrList_eq_map, relocatedList_eq_map, hcs, has]

theorem selectList_eq_nil (P : Node → Bool) (cs : List Node) (k : Nat)
    (h : selectList P cs k = []) : ∀ c ∈ cs, select P c = [] := by
  induction cs generalizing k with
  | nil => simp
  | cons a rest ih =>
    simp only [selectList, List.append_eq_nil, List.map_eq_nil_iff] at h
    intro c hc
    rcases List.mem_cons.mp hc with rfl | hc
    · exact h.1
    · exact ih (k + 1) h.2 c hc

theorem lineMarker_eq_none_of_select (c : Node) (h : select (hasTagName "code") c = []) :
    lineMarker c = none := by
  cases c with
  | text s => rfl
  | element t as cs =>
    by_cases ht : t = "code"
    · simp [select, hasTagName, ht] at h
    · simp [lineMarker, ht]

theorem relocated_eq_self (d : Node) (h : select (hasTagName "code") d = []) :
    relocated d = d := by
  induction d using Node.induction with
  | text s => rfl
  | element t as cs ih =>
    simp only [select, List.append_eq_nil] at h
    have hcs := selectList_eq_nil _ cs 0 h.2
    have hl : lastLineMarker cs = none :=
      lastLineMarker_eq_none cs (fun c hc => lineMarker_eq_none_of_select c (hcs c hc))
    have hmap : cs.map relocated = cs := by
      conv_rhs => rw [← List.map_id cs]
      exact List.map_congr_left (fun c hc => ih c hc (hcs c hc))
    simp [relocated, relocatedList_eq_map, relocateAttrs, hl, hmap]

theorem lineMarker_eq_none_of_datasetLine (c : Node)
    (h : hasTagName "code" c = true → datasetLine c [] = none) : lineMarker c = none := by
  cases c with
  | text s => rfl
  | element t as cs =>
    by_cases ht : t = "code"
    · have h1 := h (by simp [hasTagName, ht])
      simp only [datasetLine, attrsAt, nodeAt] at h1
      simp [lineMarker, h1]
    · simp [lineMarker, ht]

/-- C2: in a document where every code element has a parent element, the
relocator completes and changes nothing but the `data-line` of parents of code
elements that carry a `data-line`: with `data-line` left aside the tree after
the run is the tree before it (structure, text, every other attribute), every
element none of whose code children carries a `data-line` keeps its attribute
list as it was, and a document without code elements is left as it is. -/
theorem C2_only_parent_markers_change (d : Node)
    (hparent : ∀ p ∈ getElementsByTagName d "code", parentElement p ≠ none) :
    ∃ d1, fixCodeBlockAttributes d = .ok d1 ∧
      withoutAttr "data-line" d1 = withoutAttr "data-line" d ∧
      (∀ q t as cs, nodeAt d q = some (.element t as cs) →
        (∀ c ∈ cs, hasTagName "code" c = true → datasetLine c [] = none) →
        attrsAt d1 q = some as) ∧
      (getElementsByTagName d "code" = [] → d1 = d) := by
  refine ⟨relocated d, fixCodeBlockAttributes_of_parents d hparent,
    withoutAttr_relocated d, ?_, ?_⟩
  · intro q t as cs hq hcs
    have hl : lastLineMarker cs = none :=
      lastLineMarker_eq_none cs (fun c hc => lineMarker_eq_none_of_datasetLine c (hcs c hc))
    simp [attrsAt_relocated d q t as cs hq, relocateAttrs, hl]
  · intro h
    exact relocated_eq_self d h

/-- C2, witness: the page with one listing. -/
theorem C2_witness :
    ∃ d1, fixCodeBlockAttributes pageOneListing = .ok d1 ∧
      withoutAttr "data-line" d1 = withoutAttr "data-line" pageOneListing ∧
      (∀ q t as cs, nodeAt pageOneListing q = some (.element t as cs) →
        (∀ c ∈ cs, hasTagName "code" c = true → datasetLine c [] = none) →
        attrsAt d1 q = some as) ∧
      (getElementsByTagName pageOneListing "code" = [] → d1 = pageOneListing) :=
  C2_only_parent_markers_change pageOneListing (by decide)

/-- C4, counterexample: a document whose document element is a code element
with a non-empty `data-line` makes the relocator throw; the element is not
skipped and the code elements after it are not visited. -/
theorem C4_counterexample : fixCodeBlockAttributes pageRootCode = .typeError := by
  decide

theorem fixLoopOn_eq_fixLoop (hasDataset : Path → Bool) (ps : List Path)
    (h : ∀ p ∈ ps, hasDataset p = true ∧ ∀ q, parentElement p = some q → hasDataset q = true)
    (d : Node) : fixLoopOn hasDataset ps d = fixLoop ps d := by
  induction ps generalizing d with
  | nil => rfl
  | cons p ps ih =>
    have hp := h p (List.mem_cons_self _ _)
    have ih1 := ih (fun x hx => h x (List.mem_cons_of_mem _ hx))
    simp only [fixLoopOn, fixLoop, hp.1, if_true]
    cases datasetLine d p with
    | none => exact ih1 d
    | some line =>
      by_cases hl : line = ""
      · simp only [hl, if_true]
        exact ih1 d
      · cases hq : parentElement p with
        | none => simp [hl]
        | some q => simp [hl, hp.2 q hq, ih1]

/-- When every element has a `dataset` the two loops are the same routine. -/
theorem fixCodeBlockAttributesOn_all (d : Node) :
    fixCodeBlockAttributesOn (fun _ => true) d = fixCodeBlockAttributes d :=
  fixLoopOn_eq_fixLoop _ _ (fun _ _ => ⟨rfl, fun _ _ => rfl⟩) d

/-- A code element without a `dataset` (an element named `code` of another
namespace) makes the relocator throw although its `pre` parent is there. -/
theorem fixCodeBlockAttributesOn_code_without_dataset :
    fixCodeBlockAttributesOn (fun p => decide (p ≠ [0, 0, 0])) pageOneListing = .typeError := by
  decide

/-- A marked code element whose parent element is without a `dataset` makes
the relocator throw. -/
theorem fixCodeBlockAttributesOn_parent_without_dataset :
    fixCodeBlockAttributesOn (fun p => decide (p ≠ [0, 0])) pageOneListing = .typeError := by
  decide

theorem lineMarker_eq_none_of_marked_parents (d : Node)
    (hparent : ∀ p ∈ getElementsByTagName d "code",
      (∃ v, datasetLine d p = some v ∧ v ≠ "") → parentElement p ≠ none) :
    lineMarker d = none := by
  cases d with
  | text s => rfl
  | element t as cs =>
    by_cases ht : t = "code"
    · have hmem : ([] : Path) ∈ getElementsByTagName (.element t as cs) "code" := by
        simp [getElementsByTagName, select, hasTagName, ht]
      have h0 := hparent [] hmem
      simp only [datasetLine, attrsAt, nodeAt, parentElement, ne_eq, not_true_eq_false,
        imp_false, not_exists, not_and, not_not] at h0
      simp only [lineMarker, ht, if_true]
      cases hg : getAttr as "data-line" with
      | none => rfl
      | some v => simp [h0 v hg]
    · simp [lineMarker, ht]

/-- C4, amended: on a document in which every code element, and the parent
element of every code element, has a `dataset`, and each code element with a
non-empty `data-line` has a parent element, the relocator completes, and it has
then visited every code element: the result is the relocated tree. -/
theorem C4_completes_when_marked_code_has_parent (hasDataset : Path → Bool) (d : Node)
    (hdataset : ∀ p ∈ getElementsByTagName d "code",
      hasDataset p = true ∧ ∀ q, parentElement p = some q → hasDataset q = true)
    (hparent : ∀ p ∈ getElementsByTagName d "code",
      (∃ v, datasetLine d p = some v ∧ v ≠ "") → parentElement p ≠ none) :
    fixCodeBlockAttributesOn hasDataset d = .ok (relocated d) := by
  have h1 : fixCodeBlockAttributesOn hasDataset d = fixCodeBlockAttributes d :=
    fixLoopOn_eq_fixLoop hasDataset _ hdataset d
  rw [h1, fixCodeBlockAttributes_eq, lineMarker_eq_none_of_marked_parents d hparent]

/-- C4, witness: the page with two listings, on which all elements but the
`body` have a `dataset`. -/
theorem C4_witness :
    fixCodeBlockAttributesOn (fun p => decide (p ≠ [0])) pageTwoListings =
      .ok (relocated pageTwoListings) :=
  C4_completes_when_marked_code_has_parent (fun p => decide (p ≠ [0])) pageTwoListings
    (by decide) (by decide)

/-- C10, counterexample: the code element carries `data-line=""`, its parent
carries no `data-line`, and after the run the parent still carries none. -/
theorem C10_counterexample :
    datasetLine pageEmptyMarker [0, 0, 0] = some "" ∧
      datasetLine pageEmptyMarker [0, 0] = none ∧
      ∃ d1, fixCodeBlockAttributes pageEmptyMarker = .ok d1 ∧ datasetLine d1 [0, 0] = none :=
  ⟨by decide, by decide, pageEmptyMarker, by decide, by decide⟩

/-- C10, amended: when a code element carries `data-line` with the empty
string, its parent carries no `data-line`, no other child of that parent hands
over a marker, and the run completes, the parent carries no `data-line` after
the run: the truthiness of the value decides whether it is copied. -/
theorem C10_empty_marker_is_not_copied (d d1 : Node)
    (hrun : fixCodeBlockAttributes d = .ok d1)
    (q : Path) (t : String) (as : Attrs) (cs : List Node)
    (hq : nodeAt d q = some (.element t as cs))
    (i : Nat) (c : Node) (hi : cs[i]? = some c)
    (hempty : datasetLine c [] = some "")
    (hnone : getAttr as "data-line" = none)
    (hothers : ∀ j c1, j ≠ i → cs[j]? = some c1 → lineMarker c1 = none) :
    datasetLine d1 q = none := by
  have hd1 : d1 = relocated d := by
    rw [fixCodeBlockAttributes_eq] at hrun
    cases hm : lineMarker d with
    | none =>
      rw [hm] at hrun
      exact (Outcome.ok.inj hrun).symm
    | some v =>
      rw [hm] at hrun
      cases hrun
  subst hd1
  have hc : lineMarker c = none := by
    cases c with
    | text s => rfl
    | element tc asc csc =>
      simp only [datasetLine, attrsAt, nodeAt] at hempty
      simp [lineMarker, hempty]
  have hl : lastLineMarker cs = none := by
    apply lastLineMarker_eq_none
    intro x hx
    obtain ⟨j, hj⟩ := List.getElem?_of_mem hx
    by_cases hji : j = i
    · subst hji
      rw [hi] at hj
      simp only [Option.some.injEq] at hj
      exact hj ▸ hc
    · exact hothers j x hji hj
  simp [datasetLine, attrsAt_relocated d q t as cs hq, relocateAttrs, hl, hnone]

/-- C10, witness: the page whose only code element has an empty marker. -/
theorem C10_witness : datasetLine pageEmptyMarker [0, 0] = none :=
  C10_empty_marker_is_not_copied pageEmptyMarker pageEmptyMarker (by decide) [0, 0] "pre" []
    [.element "code" [("data-line", "")] [.text "let x = 1"]] rfl
    0 (.element "code" [("data-line", "")] [.text "let x = 1"]) rfl rfl rfl
    (fun j c1 hj h => by
      cases j with
      | zero => exact absurd rfl hj
      | succ j => simp at h)

/-! ## The annotator -/

theorem attrsAt_cons (t : String) (as : Attrs) (cs : List Node) (j : Nat) (q : Path) :
    attrsAt (.element t as cs) (j :: q) =
      match cs[j]? with
      | some c => attrsAt c q
      | none => none := by
  simp only [attrsAt, nodeAt]
  cases cs[j]? <;> rfl

theorem attrsAt_setAttributeAt_ne (d : Node) (n q : Path) (k v : String) (h : q ≠ n) :
    attrsAt (setAttributeAt d n k v) q = attrsAt d q := by
  induction n generalizing d q with
  | nil =>
    cases d with
    | text s => rfl
    | element t as cs =>
      cases q with
      | nil => exact absurd rfl h
      | cons j q => simp [setAttributeAt, attrsAt_cons]
  | cons i n ih =>
    cases d with
    | text s => rfl
    | element t as cs =>
      simp only [setAttributeAt]
      cases hc : cs[i]? with
      | none => rfl
      | some c =>
        cases q with
        | nil => simp [attrsAt, nodeAt]
        | cons j q =>
          simp only [attrsAt_cons]
          by_cases hji : j = i
          · subst hji
            have hlt : j < cs.length := by
              rcases Nat.lt_or_ge j cs.length with hlt | hge
              · exact hlt
              · rw [List.getElem?_eq_none hge] at hc
                cases hc
            have hq : q ≠ n := fun hqn => h (by rw [hqn])
            simp only [List.getElem?_set_self hlt, hc]
            exact ih c q hq
          · rw [List.getElem?_set_ne (Ne.symm hji)]

theorem attrsAt_setAttributeAt_same (d : Node) (n : Path) (k v : String) (as : Attrs)
    (h : attrsAt d n = some as) :
    attrsAt (setAttributeAt d n k v) n = some (setAttr as k v) := by
  induction n generalizing d with
  | nil =>
    cases d with
    | text s => simp [attrsAt, nodeAt] at h
    | element t as1 cs =>
      simp only [attrsAt, nodeAt, Option.some.injEq] at h
      simp [setAttributeAt, attrsAt, nodeAt, h]
  | cons i n ih =>
    cases d with
    | text s => simp [attrsAt, nodeAt] at h
    | element t as1 cs =>
      rw [attrsAt_cons] at h
      simp only [setAttributeAt]
      cases hc : cs[i]? with
      | none => simp [hc] at h
      | some c =>
        rw [hc] at h
        have hlt : i < cs.length := by
          rcases Nat.lt_or_ge i cs.length with hlt | hge
          · exact hlt
          · rw [List.getElem?_eq_none hge] at hc
            cases hc
        simp only [attrsAt_cons, List.getElem?_set_self hlt]
        exact ih c h

/-- C5: on a document that holds no element with the id
`subverting-angular-treeview` the annotator, which has no failing step, leaves
the document as it is. -/
theorem C5_no_container_no_change (d : Node)
    (h : select (hasId "subverting-angular-treeview") d = []) :
    subvertingAngularUsingElmishPost d = d := by
  simp [subvertingAngularUsingElmishPost, getElementById, h]

/-- C5, witness: the page without the diagram. -/
theorem C5_witness : subvertingAngularUsingElmishPost pageNoTreeview = pageNoTreeview :=
  C5_no_container_no_change pageNoTreeview (by decide)

/-- C6, the code at the failing input: the diagram is present at `[0, 1]` and
holds no element whose text is `elmish` (neither as its whole text nor as a
text-node child), and the annotator styles the `span` at `[0, 0]`, outside the
diagram. -/
theorem C6_span_outside_container_is_styled :
    getElementById pageOutsideSpan "subverting-angular-treeview" = some [0, 1] ∧
      (∃ c, nodeAt pageOutsideSpan [0, 1] = some c ∧ select (hasText "elmish") c = [] ∧
        select (bearsText "elmish") c = []) ∧
      attrsAt pageOutsideSpan [0, 0] = some [] ∧
      attrsAt (subvertingAngularUsingElmishPost pageOutsideSpan) [0, 0] =
        some [("style", "color: orange")] ∧
      subvertingAngularUsingElmishPost pageOutsideSpan ≠ pageOutsideSpan :=
  ⟨by decide, ⟨_, rfl, by decide, by decide⟩, by decide, by decide, by decide⟩

/-- C7, counterexample: the diagram is present and holds exactly one element
whose text is `elmish` (as its whole text, and as a text-node child), the `b`
element at `[0, 0, 0]`; the annotator leaves the document as it is, so that
element has no `style` after the run. -/
theorem C7_counterexample :
    getElementById pageBoldLabel "subverting-angular-treeview" = some [0, 0] ∧
      (∃ c, nodeAt pageBoldLabel [0, 0] = some c ∧ select (hasText "elmish") c = [[0]] ∧
        select (bearsText "elmish") c = [[0]]) ∧
      subvertingAngularUsingElmishPost pageBoldLabel = pageBoldLabel ∧
      attrsAt (subvertingAngularUsingElmishPost pageBoldLabel) [0, 0, 0] = some [] :=
  ⟨by decide, ⟨_, rfl, by decide, by decide⟩, by decide, by decide⟩

/-- C7, amended: when the diagram container is present, exactly one `span` of
the document has a text-node child with the data `elmish`, and that `span` lies
inside the container, the annotator gives that `span` the style
`color: orange` and leaves the attribute list of every other element as it
was. -/
theorem C7_only_labelled_span_is_styled (d : Node) (treeview n : Path)
    (htreeview : getElementById d "subverting-angular-treeview" = some treeview)
    (hinside : ∃ rel, rel ≠ [] ∧ n = treeview ++ rel)
    (honly : select (spanWithText "elmish") d = [n]) :
    (∃ as, attrsAt (subvertingAngularUsingElmishPost d) n = some as ∧
        getAttr as "style" = some "color: orange") ∧
      ∀ q, q ≠ n → attrsAt (subvertingAngularUsingElmishPost d) q = attrsAt d q := by
  have _ := hinside
  have hsub : subvertingAngularUsingElmishPost d = setAttributeAt d n "style" "color: orange" := by
    simp [subvertingAngularUsingElmishPost, htreeview, evaluateFirst, honly]
  have hmem : n ∈ select (spanWithText "elmish") d := by simp [honly]
  obtain ⟨t, as, cs, hn, _⟩ := (mem_select_iff _ d n).mp hmem
  have has : attrsAt d n = some as := by simp [attrsAt, hn]
  rw [hsub]
  refine ⟨⟨setAttr as "style" "color: orange", ?_, getAttr_setAttr_same _ _ _⟩, ?_⟩
  · exact attrsAt_setAttributeAt_same d n _ _ as has
  · intro q hq
    exact attrsAt_setAttributeAt_ne d n q _ _ hq

/-- C7, witness: the page whose diagram holds the label in its second `span`. -/
theorem C7_witness :
    (∃ as, attrsAt (subvertingAngularUsingElmishPost pageTreeview) [0, 1, 1] = some as ∧
        getAttr as "style" = some "color: orange") ∧
      ∀ q, q ≠ [0, 1, 1] →
        attrsAt (subvertingAngularUsingElmishPost pageTreeview) q = attrsAt pageTreeview q :=
  C7_only_labelled_span_is_styled pageTreeview [0, 1] [0, 1, 1] (by decide)
    ⟨[1], by decide, by decide⟩ (by decide)

/-! ## Selections are stable under attribute changes -/

theorem selectList_map_congr (P : Node → Bool) (f : Node → Node) (cs : List Node)
    (h : ∀ c ∈ cs, select P (f c) = select P c) (k : Nat) :
    selectList P (cs.map f) k = selectList P cs k := by
  induction cs generalizing k with
  | nil => rfl
  | cons c cs ih =>
    simp only [List.map_cons, selectList]
    rw [h c (List.mem_cons_self _ _), ih (fun x hx => h x (List.mem_cons_of_mem _ hx))]

theorem selectList_set (P : Node → Bool) (cs : List Node) (i : Nat) (c c1 : Node)
    (hc : cs[i]? = some c) (h : select P c1 = select P c) (k : Nat) :
    selectList P (cs.set i c1) k = selectList P cs k := by
  induction cs generalizing i k with
  | nil => simp at hc
  | cons a rest ih =>
    cases i with
    | zero =>
      simp only [List.getElem?_cons_zero, Option.some.injEq] at hc
      subst hc
      simp [selectList, h]
    | succ i =>
      have hc1 : rest[i]? = some c := by simpa using hc
      simp [selectList, ih i hc1]

theorem select_relocated (P : Node → Bool)
    (hP : ∀ t as cs, P (.element t (relocateAttrs as cs) (cs.map relocated)) =
      P (.element t as cs)) (d : Node) :
    select P (relocated d) = select P d := by
  induction d using Node.induction with
  | text s => rfl
  | element t as cs ih =>
    simp only [relocated, relocatedList_eq_map, select, hP,
      selectList_map_congr P relocated cs ih]

theorem select_setAttributeAt (P : Node → Bool) (k v : String)
    (hP1 : ∀ t as cs, P (.element t (setAttr as k v) cs) = P (.element t as cs))
    (hP2 : ∀ t as cs i c p, cs[i]? = some c →
      P (.element t as (cs.set i (setAttributeAt c p k v))) = P (.element t as cs))
    (d : Node) (n : Path) :
    select P (setAttributeAt d n k v) = select P d := by
  induction n generalizing d with
  | nil =>
    cases d with
    | text s => rfl
    | element t as cs => simp only [setAttributeAt, select, hP1]
  | cons i n ih =>
    cases d with
    | text s => rfl
    | element t as cs =>
      simp only [setAttributeAt]
      cases hc : cs[i]? with
      | none => rfl
      | some c =>
        simp only [select, hP2 t as cs i c n hc, selectList_set P cs i c _ hc (ih c)]

theorem isTextNode_setAttributeAt (s : String) (c : Node) (p : Path) (k v : String) :
    isTextNode s (setAttributeAt c p k v) = isTextNode s c := by
  cases c with
  | text s1 => cases p <;> rfl
  | element t as cs =>
    cases p with
    | nil => rfl
    | cons i p =>
      simp only [setAttributeAt]
      cases cs[i]? <;> rfl

theorem isTextNode_relocated (s : String) (c : Node) :
    isTextNode s (relocated c) = isTextNode s c := by
  cases c <;> rfl

theorem any_set (f : Node → Bool) (cs : List Node) (i : Nat) (c c1 : Node)
    (hc : cs[i]? = some c) (h : f c1 = f c) : (cs.set i c1).any f = cs.any f := by
  induction cs generalizing i with
  | nil => simp at hc
  | cons a rest ih =>
    cases i with
    | zero =>
      simp only [List.getElem?_cons_zero, Option.some.injEq] at hc
      subst hc
      simp [h]
    | succ i =>
      have hc1 : rest[i]? = some c := by simpa using hc
      simp [ih i hc1]

theorem getElementById_setAttributeAt (d : Node) (n : Path) (id k v : String) (hk : k ≠ "id") :
    getElementById (setAttributeAt d n k v) id = getElementById d id := by
  unfold getElementById
  rw [select_setAttributeAt (hasId id) k v _ _ d n]
  · intro t as cs
    simp [hasId, getAttr_setAttr_other as k v "id" (Ne.symm hk)]
  · intro t as cs i c p _
    rfl

theorem evaluateFirst_setAttributeAt (d : Node) (n c1 c2 : Path) (k v : String) :
    evaluateFirst (setAttributeAt d n k v) c1 = evaluateFirst d c2 := by
  unfold evaluateFirst
  rw [select_setAttributeAt (spanWithText "elmish") k v _ _ d n]
  · intro t as cs
    rfl
  · intro t as cs i c p hc
    simp only [spanWithText]
    rw [any_set _ cs i c _ hc (isTextNode_setAttributeAt _ c p k v)]

theorem getElementById_relocated (d : Node) (id : String) :
    getElementById (relocated d) id = getElementById d id := by
  unfold getElementById
  rw [select_relocated (hasId id) _ d]
  intro t as cs
  have h : getAttr (relocateAttrs as cs) "id" = getAttr as "id" := by
    unfold relocateAttrs
    cases lastLineMarker cs with
    | none => rfl
    | some w => exact getAttr_setAttr_other as "data-line" w "id" (by decide)
  simp only [hasId, h]

theorem evaluateFirst_relocated (d : Node) (c1 c2 : Path) :
    evaluateFirst (relocated d) c1 = evaluateFirst d c2 := by
  unfold evaluateFirst
  rw [select_relocated (spanWithText "elmish") _ d]
  intro t as cs
  simp only [spanWithText, List.any_map]
  congr 2
  funext c
  exact isTextNode_relocated _ c

theorem getElementsByTagName_setAttributeAt (d : Node) (n : Path) (name k v : String) :
    getElementsByTagName (setAttributeAt d n k v) name = getElementsByTagName d name := by
  unfold getElementsByTagName
  rw [select_setAttributeAt (hasTagName name) k v _ _ d n]
  · intro t as cs
    rfl
  · intro t as cs i c p _
    rfl

/-! ## Running twice -/

theorem getElem?_lt {cs : List Node} {i : Nat} {c : Node} (hc : cs[i]? = some c) :
    i < cs.length := by
  rcases Nat.lt_or_ge i cs.length with hlt | hge
  · exact hlt
  · rw [List.getElem?_eq_none hge] at hc
    cases hc

theorem setAttributeAt_idem (d : Node) (n : Path) (k v : String) :
    setAttributeAt (setAttributeAt d n k v) n k v = setAttributeAt d n k v := by
  induction n generalizing d with
  | nil =>
    cases d with
    | text s => rfl
    | element t as cs => simp [setAttributeAt, setAttr_setAttr_same]
  | cons i n ih =>
    cases d with
    | text s => rfl
    | element t as cs =>
      cases hc : cs[i]? with
      | none => simp [setAttributeAt, hc]
      | some c =>
        simp [setAttributeAt, hc, List.getElem?_set_self (getElem?_lt hc), ih c]

theorem lineMarker_setAttributeAt (c : Node) (p : Path) (k v : String) (hk : k ≠ "data-line") :
    lineMarker (setAttributeAt c p k v) = lineMarker c := by
  cases c with
  | text s => cases p <;> rfl
  | element t as cs =>
    cases p with
    | nil =>
      simp only [setAttributeAt, lineMarker,
        getAttr_setAttr_other as k v "data-line" (Ne.symm hk)]
    | cons i p =>
      simp only [setAttributeAt]
      cases cs[i]? <;> rfl

theorem lastLineMarker_map_congr (f : Node → Node) (cs : List Node)
    (h : ∀ c ∈ cs, lineMarker (f c) = lineMarker c) :
    lastLineMarker (cs.map f) = lastLineMarker cs := by
  induction cs with
  | nil => rfl
  | cons c cs ih =>
    simp only [List.map_cons, lastLineMarker]
    rw [ih (fun x hx => h x (List.mem_cons_of_mem _ hx)), h c (List.mem_cons_self _ _)]

theorem lastLineMarker_set (cs : List Node) (i : Nat) (c c1 : Node)
    (hc : cs[i]? = some c) (h : lineMarker c1 = lineMarker c) :
    lastLineMarker (cs.set i c1) = lastLineMarker cs := by
  induction cs generalizing i with
  | nil => simp at hc
  | cons a rest ih =>
    cases i with
    | zero =>
      simp only [List.getElem?_cons_zero, Option.some.injEq] at hc
      subst hc
      simp [lastLineMarker, h]
    | succ i =>
      have hc1 : rest[i]? = some c := by simpa using hc
      simp [lastLineMarker, ih i hc1]

/-- Once no code element has a marked child, a second relocation finds every
marker already in place. -/
theorem relocated_relocated (n : Node) :
    (∀ p as cs, nodeAt n p = some (.element "code" as cs) → lastLineMarker cs = none) →
      relocated (relocated n) = relocated n := by
  induction n using Node.induction with
  | text s => intro _; rfl
  | element t as cs ih =>
    intro H
    have hchild : ∀ c ∈ cs, ∀ p as1 cs1,
        nodeAt c p = some (.element "code" as1 cs1) → lastLineMarker cs1 = none := by
      intro c hc p as1 cs1 hp
      obtain ⟨i, hi⟩ := List.getElem?_of_mem hc
      exact H (i :: p) as1 cs1 (by simp [nodeAt, hi, hp])
    have hmark : ∀ c ∈ cs, lineMarker (relocated c) = lineMarker c := by
      intro c hc
      cases c with
      | text s => rfl
      | element tc asc csc =>
        by_cases htc : tc = "code"
        · subst htc
          have h0 := hchild _ hc [] asc csc rfl
          simp [relocated, relocateAttrs, h0, lineMarker]
        · simp [relocated, lineMarker, htc]
    have hl := lastLineMarker_map_congr relocated cs hmark
    have hcs : (cs.map relocated).map relocated = cs.map relocated := by
      rw [List.map_map]
      exact List.map_congr_left (fun c hc => ih c hc (hchild c hc))
    have has : relocateAttrs (relocateAttrs as cs) (cs.map relocated) = relocateAttrs as cs := by
      unfold relocateAttrs
      rw [hl]
      cases lastLineMarker cs with
      | none => rfl
      | some w => exact setAttr_setAttr_same as _ w w
    simp only [relocated, relocatedList_eq_map, hcs, has]

theorem setAttr_of_fixed (as : Attrs) (k w k1 v : String) (hk : k1 ≠ k)
    (h : setAttr as k w = as) : setAttr (setAttr as k1 v) k w = setAttr as k1 v := by
  induction as with
  | nil => simp [setAttr] at h
  | cons a rest ih =>
    obtain ⟨k2, v2⟩ := a
    by_cases h2 : k2 = k
    · subst h2
      simp only [setAttr, if_true, List.cons.injEq, Prod.mk.injEq, true_and, and_true] at h
      subst h
      simp [setAttr, Ne.symm hk]
    · simp only [setAttr, h2, if_false, List.cons.injEq, true_and] at h
      by_cases h3 : k2 = k1
      · subst h3
        simp [setAttr, h2, hk, h]
      · simp [setAttr, h2, h3, ih h]

/-- A tree that the relocation leaves alone is still left alone after an
attribute other than `data-line` has been set on one of its elements. -/
theorem relocated_setAttributeAt_of_fixed (x : Node) (p : Path) (k v : String)
    (hk : k ≠ "data-line") (h : relocated x = x) :
    relocated (setAttributeAt x p k v) = setAttributeAt x p k v := by
  induction p generalizing x with
  | nil =>
    cases x with
    | text s => rfl
    | element t as cs =>
      simp only [relocated, relocatedList_eq_map, Node.element.injEq, true_and] at h
      simp only [setAttributeAt, relocated, relocatedList_eq_map, h.2, Node.element.injEq,
        true_and, and_true]
      have h1 := h.1
      unfold relocateAttrs at h1 ⊢
      cases hl : lastLineMarker cs with
      | none => rfl
      | some w =>
        rw [hl] at h1
        exact setAttr_of_fixed as "data-line" w k v hk h1
  | cons i p ih =>
    cases x with
    | text s => rfl
    | element t as cs =>
      simp only [relocated, relocatedList_eq_map, Node.element.injEq, true_and] at h
      simp only [setAttributeAt]
      cases hc : cs[i]? with
      | none => simp [relocated, relocatedList_eq_map, h.1, h.2]
      | some c =>
        have hcfix : relocated c = c := by
          have h2 := congrArg (fun l => l[i]?) h.2
          simp only [List.getElem?_map, hc, Option.map_some', Option.some.injEq] at h2
          exact h2
        have hl := lastLineMarker_set cs i c (setAttributeAt c p k v) hc
          (lineMarker_setAttributeAt c p k v hk)
        have has : relocateAttrs as (cs.set i (setAttributeAt c p k v)) = as := by
          have h1 := h.1
          unfold relocateAttrs at h1 ⊢
          rw [hl]
          exact h1
        have hcs : (cs.set i (setAttributeAt c p k v)).map relocated =
            cs.set i (setAttributeAt c p k v) := by
          rw [List.map_set, h.2, ih c hcfix]
        simp only [relocated, relocatedList_eq_map, has, hcs]

theorem subvertingAngularUsingElmishPost_idem (d : Node) :
    subvertingAngularUsingElmishPost (subvertingAngularUsingElmishPost d) =
      subvertingAngularUsingElmishPost d := by
  cases hid : getElementById d "subverting-angular-treeview" with
  | none => simp [subvertingAngularUsingElmishPost, hid]
  | some treeview =>
    cases hev : evaluateFirst d treeview with
    | none => simp [subvertingAngularUsingElmishPost, hid, hev]
    | some n =>
      have h1 : subvertingAngularUsingElmishPost d =
          setAttributeAt d n "style" "color: orange" := by
        simp [subvertingAngularUsingElmishPost, hid, hev]
      rw [h1]
      simp only [subvertingAngularUsingElmishPost,
        getElementById_setAttributeAt d n _ "style" _ (by decide), hid,
        evaluateFirst_setAttributeAt d n treeview treeview, hev, setAttributeAt_idem]

theorem subvertingAngularUsingElmishPost_cases (d : Node) :
    subvertingAngularUsingElmishPost d = d ∨
      ∃ n, subvertingAngularUsingElmishPost d = setAttributeAt d n "style" "color: orange" := by
  cases hid : getElementById d "subverting-angular-treeview" with
  | none => exact Or.inl (by simp [subvertingAngularUsingElmishPost, hid])
  | some treeview =>
    cases hev : evaluateFirst d treeview with
    | none => exact Or.inl (by simp [subvertingAngularUsingElmishPost, hid, hev])
    | some n => exact Or.inr ⟨n, by simp [subvertingAngularUsingElmishPost, hid, hev]⟩

theorem nodeAt_append (d : Node) (p q : Path) :
    nodeAt d (p ++ q) = (nodeAt d p).bind (fun n => nodeAt n q) := by
  induction p generalizing d with
  | nil => simp [nodeAt]
  | cons i p ih =>
    cases d with
    | text s => simp [nodeAt]
    | element t as cs =>
      simp only [List.cons_append, nodeAt]
      cases cs[i]? with
      | none => rfl
      | some c => exact ih c

theorem parentElement_append_singleton (p : Path) (i : Nat) :
    parentElement (p ++ [i]) = some p := by
  cases p with
  | nil => rfl
  | cons j p =>
    show some (((j :: p) ++ [i]).dropLast) = some (j :: p)
    rw [List.dropLast_concat]

theorem hasTagName_eq_false_of_parents (d : Node)
    (hparent : ∀ p ∈ getElementsByTagName d "code", parentElement p ≠ none) :
    hasTagName "code" d = false := by
  cases d with
  | text s => rfl
  | element t as cs =>
    by_cases h : t = "code"
    · have hmem : ([] : Path) ∈ getElementsByTagName (.element t as cs) "code" := by
        simp [getElementsByTagName, select, hasTagName, h]
      exact absurd rfl (hparent [] hmem)
    · simp [hasTagName, h]

theorem lineMarker_relocated_of_not_code (d : Node) (h : hasTagName "code" d = false) :
    lineMarker (relocated d) = none := by
  cases d with
  | text s => rfl
  | element t as cs =>
    have ht : t ≠ "code" := by simpa [hasTagName] using h
    simp [relocated, lineMarker, ht]

theorem no_marked_child_of_code (d : Node)
    (hflat : ∀ p ∈ select hasLineMarker d, ∀ q, parentElement p = some q →
      q ∉ getElementsByTagName d "code") :
    ∀ p as cs, nodeAt d p = some (.element "code" as cs) → lastLineMarker cs = none := by
  intro p as cs hp
  cases hl : lastLineMarker cs with
  | none => rfl
  | some v =>
    exfalso
    obtain ⟨i, c, hi, hc⟩ := lastLineMarker_some_mem cs v hl
    have hnode : nodeAt d (p ++ [i]) = some c := by
      simp [nodeAt_append, hp, nodeAt, hi]
    have hmem : (p ++ [i]) ∈ select hasLineMarker d := by
      rw [mem_select_iff]
      cases c with
      | text s => simp [lineMarker] at hc
      | element tc asc csc => exact ⟨tc, asc, csc, hnode, by simp [hasLineMarker, hc]⟩
    have hcode : p ∈ getElementsByTagName d "code" := by
      unfold getElementsByTagName
      rw [mem_select_iff]
      exact ⟨"code", as, cs, hp, by simp [hasTagName]⟩
    exact hflat _ hmem p (parentElement_append_singleton p i) hcode

/-- C8, counterexample: with a marked code element inside a marked code
element the first run leaves `data-line="1"` on the `pre` and the second run
changes it to `2`. -/
theorem C8_counterexample :
    ∃ d1 d2, runScripts pageNestedCode = .ok d1 ∧ runScripts d1 = .ok d2 ∧
      datasetLine d1 [0, 0] = some "1" ∧ datasetLine d2 [0, 0] = some "2" ∧ d1 ≠ d2 :=
  ⟨.element "html" [] [.element "body" [] [
      .element "pre" [("data-line", "1")] [
        .element "code" [("data-line", "2")] [
          .element "code" [("data-line", "2")] [.text "x"]]]]],
    .element "html" [] [.element "body" [] [
      .element "pre" [("data-line", "2")] [
        .element "code" [("data-line", "2")] [
          .element "code" [("data-line", "2")] [.text "x"]]]]],
    by decide, by decide, by decide, by decide, by decide⟩

/-- C8, amended: in a document where every code element has a parent element
and no code element with a non-empty `data-line` is the child of a code
element, `runScripts` completes, and a second run on its result completes and
leaves that result as it is. -/
theorem C8_runScripts_idempotent_without_nested_code (d : Node)
    (hparent : ∀ p ∈ getElementsByTagName d "code", parentElement p ≠ none)
    (hflat : ∀ p ∈ select hasLineMarker d, ∀ q, parentElement p = some q →
      q ∉ getElementsByTagName d "code") :
    ∃ d1, runScripts d = .ok d1 ∧ runScripts d1 = .ok d1 := by
  have hfix := fixCodeBlockAttributes_of_parents d hparent
  have hx : relocated (relocated d) = relocated d :=
    relocated_relocated d (no_marked_child_of_code d hflat)
  have hroot : lineMarker (relocated d) = none :=
    lineMarker_relocated_of_not_code d (hasTagName_eq_false_of_parents d hparent)
  refine ⟨subvertingAngularUsingElmishPost (relocated d), by simp [runScripts, hfix], ?_⟩
  have hy : relocated (subvertingAngularUsingElmishPost (relocated d)) =
      subvertingAngularUsingElmishPost (relocated d) := by
    rcases subvertingAngularUsingElmishPost_cases (relocated d) with h | ⟨n, h⟩
    · rw [h, hx]
    · rw [h]
      exact relocated_setAttributeAt_of_fixed _ n _ _ (by decide) hx
  have hyroot : lineMarker (subvertingAngularUsingElmishPost (relocated d)) = none := by
    rcases subvertingAngularUsingElmishPost_cases (relocated d) with h | ⟨n, h⟩
    · rw [h, hroot]
    · rw [h, lineMarker_setAttributeAt _ n _ _ (by decide), hroot]
  simp only [runScripts, fixCodeBlockAttributes_eq, hyroot, hy,
    subvertingAngularUsingElmishPost_idem]

/-- C8, witness: the page with a listing and the diagram. -/
theorem C8_witness :
    ∃ d1, runScripts pageListingAndTreeview = .ok d1 ∧ runScripts d1 = .ok d1 :=
  C8_runScripts_idempotent_without_nested_code pageListingAndTreeview (by decide) (by decide)

/-! ## The two routines in either order -/

theorem setAttr_comm_perm (as : Attrs) (k v k1 w : String) (h : k ≠ k1) :
    (setAttr (setAttr as k v) k1 w).Perm (setAttr (setAttr as k1 w) k v) := by
  induction as with
  | nil =>
    simp only [setAttr, h, Ne.symm h, if_false]
    exact List.Perm.swap _ _ _
  | cons a rest ih =>
    obtain ⟨k2, v2⟩ := a
    by_cases h2 : k2 = k
    · subst h2
      simp [setAttr, h]
    · by_cases h3 : k2 = k1
      · subst h3
        simp [setAttr, h2]
      · simp only [setAttr, h2, h3, if_false]
        exact List.Perm.cons _ ih

theorem isEqualNode_element (t : String) (as bs : Attrs) (cs cs1 : List Node)
    (hattrs : as.Perm bs) (hcs : isEqualNodeList cs cs1 = true) :
    isEqualNode (.element t as cs) (.element t bs cs1) = true := by
  have hall : as.all (fun a => bs.contains a) = true := by
    rw [List.all_eq_true]
    intro a ha
    exact List.elem_eq_true_of_mem (hattrs.mem_iff.mp ha)
  simp only [isEqualNode, hattrs.length_eq, hall, hcs, decide_True, Bool.and_self]

theorem isEqualNodeList_of_forall (cs : List Node) (h : ∀ c ∈ cs, isEqualNode c c = true) :
    isEqualNodeList cs cs = true := by
  induction cs with
  | nil => rfl
  | cons c cs ih =>
    simp only [isEqualNodeList, Bool.and_eq_true]
    exact ⟨h c (List.mem_cons_self _ _), ih (fun x hx => h x (List.mem_cons_of_mem _ hx))⟩

theorem isEqualNode_refl (n : Node) : isEqualNode n n = true := by
  induction n using Node.induction with
  | text s => simp [isEqualNode]
  | element t as cs ih =>
    exact isEqualNode_element t as as cs cs (List.Perm.refl _) (isEqualNodeList_of_forall cs ih)

theorem isEqualNodeList_set (cs : List Node) (i : Nat) (a b : Node) (hi : i < cs.length)
    (h : isEqualNode a b = true) : isEqualNodeList (cs.set i a) (cs.set i b) = true := by
  induction cs generalizing i with
  | nil => simp at hi
  | cons c rest ih =>
    cases i with
    | zero =>
      simp only [List.set_cons_zero, isEqualNodeList, Bool.and_eq_true]
      exact ⟨h, isEqualNodeList_of_forall rest (fun x _ => isEqualNode_refl x)⟩
    | succ i =>
      simp only [List.set_cons_succ, isEqualNodeList, Bool.and_eq_true]
      exact ⟨isEqualNode_refl c, ih i (by simpa using hi)⟩

/-- Setting an attribute other than `data-line` and relocating give equal
nodes in either order. -/
theorem isEqualNode_setAttributeAt_relocated (d : Node) (n : Path) (k v : String)
    (hk : k ≠ "data-line") :
    isEqualNode (setAttributeAt (relocated d) n k v) (relocated (setAttributeAt d n k v)) =
      true := by
  induction n generalizing d with
  | nil =>
    cases d with
    | text s => simp [relocated, setAttributeAt, isEqualNode]
    | element t as cs =>
      have hattrs : (setAttr (relocateAttrs as cs) k v).Perm
          (relocateAttrs (setAttr as k v) cs) := by
        unfold relocateAttrs
        cases lastLineMarker cs with
        | none => exact List.Perm.refl _
        | some w => exact setAttr_comm_perm as "data-line" w k v (Ne.symm hk)
      have h2 := isEqualNodeList_of_forall (cs.map relocated) (fun x _ => isEqualNode_refl x)
      simp only [relocated, relocatedList_eq_map, setAttributeAt]
      exact isEqualNode_element t _ _ _ _ hattrs h2
  | cons i n ih =>
    cases d with
    | text s => simp [relocated, setAttributeAt, isEqualNode]
    | element t as cs =>
      cases hc : cs[i]? with
      | none =>
        simp only [relocated, relocatedList_eq_map, setAttributeAt, List.getElem?_map, hc,
          Option.map_none']
        exact isEqualNode_refl _
      | some c =>
        have hl := lastLineMarker_set cs i c (setAttributeAt c n k v) hc
          (lineMarker_setAttributeAt c n k v hk)
        have has : relocateAttrs as (cs.set i (setAttributeAt c n k v)) = relocateAttrs as cs := by
          unfold relocateAttrs
          rw [hl]
        have hlt : i < (cs.map relocated).length := by
          simpa using getElem?_lt hc
        have hcs := isEqualNodeList_set (cs.map relocated) i _ _ hlt (ih c)
        simp only [relocated, relocatedList_eq_map, setAttributeAt, List.getElem?_map, hc,
          Option.map_some', has, List.map_set]
        exact isEqualNode_element t _ _ _ _ (List.Perm.refl _) hcs

/-- The order of the attributes of one element can depend on the order of the
two routines: when the label `span` is also the parent of a marked code
element and has neither attribute yet, relocator first leaves `data-line`,
`style` and annotator first leaves `style`, `data-line`.  The two documents
are equal nodes all the same. -/
theorem attribute_order_of_label_with_code :
    ∃ a b, fixCodeBlockAttributes pageLabelWithCode = .ok a ∧
      fixCodeBlockAttributes (subvertingAngularUsingElmishPost pageLabelWithCode) = .ok b ∧
      attrsAt (subvertingAngularUsingElmishPost a) [0, 0, 0] =
        some [("data-line", "1"), ("style", "color: orange")] ∧
      attrsAt b [0, 0, 0] = some [("style", "color: orange"), ("data-line", "1")] ∧
      isEqualNode (subvertingAngularUsingElmishPost a) b = true :=
  ⟨.element "html" [] [.element "body" [] [
      .element "div" [("id", "subverting-angular-treeview")] [
        .element "span" [("data-line", "1")] [
          .text "elmish",
          .element "code" [("data-line", "1")] [.text "x"]]]]],
    .element "html" [] [.element "body" [] [
      .element "div" [("id", "subverting-angular-treeview")] [
        .element "span" [("style", "color: orange"), ("data-line", "1")] [
          .text "elmish",
          .element "code" [("data-line", "1")] [.text "x"]]]]],
    by decide, by decide, by decide, by decide, by decide⟩

/-- C9: on every document on which the relocator completes, it completes after
the annotator too, and relocator-then-annotator and annotator-then-relocator
leave the same document: the two results are equal nodes in the sense of
`isEqualNode`, the same tree, the same text and on every element the same
attributes with the same values. -/
theorem C9_either_order_gives_equal_nodes (d a : Node)
    (hrun : fixCodeBlockAttributes d = .ok a) :
    ∃ b, fixCodeBlockAttributes (subvertingAngularUsingElmishPost d) = .ok b ∧
      isEqualNode (subvertingAngularUsingElmishPost a) b = true := by
  have hroot : lineMarker d = none := by
    rw [fixCodeBlockAttributes_eq] at hrun
    cases hm : lineMarker d with
    | none => rfl
    | some v =>
      rw [hm] at hrun
      cases hrun
  have ha : a = relocated d := by
    rw [fixCodeBlockAttributes_eq, hroot] at hrun
    exact (Outcome.ok.inj hrun).symm
  subst ha
  have hroot2 : lineMarker (subvertingAngularUsingElmishPost d) = none := by
    rcases subvertingAngularUsingElmishPost_cases d with h | ⟨n, h⟩
    · rw [h, hroot]
    · rw [h, lineMarker_setAttributeAt _ n _ _ (by decide), hroot]
  refine ⟨relocated (subvertingAngularUsingElmishPost d), ?_, ?_⟩
  · rw [fixCodeBlockAttributes_eq, hroot2]
  · cases hid : getElementById d "subverting-angular-treeview" with
    | none =>
      simp only [subvertingAngularUsingElmishPost, getElementById_relocated, hid]
      exact isEqualNode_refl _
    | some treeview =>
      cases hev : evaluateFirst d treeview with
      | none =>
        simp only [subvertingAngularUsingElmishPost, getElementById_relocated, hid,
          evaluateFirst_relocated d treeview treeview, hev]
        exact isEqualNode_refl _
      | some n =>
        simp only [subvertingAngularUsingElmishPost, getElementById_relocated, hid,
          evaluateFirst_relocated d treeview treeview, hev]
        exact isEqualNode_setAttributeAt_relocated d n _ _ (by decide)

/-- C9, witness: the page with a listing and the diagram. -/
theorem C9_witness :
    ∃ b, fixCodeBlockAttributes
        (subvertingAngularUsingElmishPost pageListingAndTreeview) = .ok b ∧
      isEqualNode (subvertingAngularUsingElmishPost
        (.element "html" [] [.element "body" [] [
          .element "pre" [("data-line", "3-5")] [
            .element "code" [("data-line", "3-5")] [.text "let x = 1"]],
          .element "div" [("id", "subverting-angular-treeview")] [
            .element "span" [] [.text "elmish"]]]])) b = true :=
  C9_either_order_gives_equal_nodes pageListingAndTreeview _ (by decide)

/-! ## Counting the parents that hold a copy -/

theorem satisfiesAt_child (Q : Node → Bool) (t : String) (as : Attrs) (pre post : List Node)
    (c : Node) (q : Path) :
    satisfiesAt Q (.element t as (pre ++ c :: post)) (pre.length :: q) = satisfiesAt Q c q := by
  simp only [satisfiesAt, nodeAt_child]

theorem filter_selectList (P Q : Node → Bool) (t : String) (as : Attrs) (rest : List Node)
    (ih : ∀ c ∈ rest, (select P c).filter (satisfiesAt Q c) = select (fun m => P m && Q m) c) :
    ∀ pre : List Node,
      (selectList P rest pre.length).filter (satisfiesAt Q (.element t as (pre ++ rest))) =
        selectList (fun m => P m && Q m) rest pre.length := by
  induction rest with
  | nil => intro pre; rfl
  | cons c rest ihr =>
    intro pre
    have h1 := ihr (fun x hx => ih x (List.mem_cons_of_mem _ hx)) (pre ++ [c])
    simp only [List.length_append, List.length_singleton, List.append_assoc,
      List.singleton_append] at h1
    have h2 : ((select P c).map (fun p => pre.length :: p)).filter
        (satisfiesAt Q (.element t as (pre ++ c :: rest))) =
        (select (fun m => P m && Q m) c).map (fun p => pre.length :: p) := by
      rw [List.filter_map, ← ih c (List.mem_cons_self _ _)]
      congr 2
      funext q
      exact satisfiesAt_child Q t as pre rest c q
    simp only [selectList, List.filter_append, h1, h2]

theorem filter_select (P Q : Node → Bool) (n : Node) :
    (select P n).filter (satisfiesAt Q n) = select (fun m => P m && Q m) n := by
  induction n using Node.induction with
  | text s => rfl
  | element t as cs ih =>
    have h := filter_selectList P Q t as cs ih []
    simp only [List.length_nil, List.nil_append] at h
    simp only [select, List.filter_append, h]
    congr 1
    by_cases hP : P (.element t as cs) = true
    · by_cases hQ : Q (.element t as cs) = true
      · simp [hP, hQ, satisfiesAt, nodeAt]
      · simp [hP, hQ, satisfiesAt, nodeAt]
    · simp [hP]

theorem lastLineMarker_none_forall (cs : List Node) (h : lastLineMarker cs = none) :
    ∀ c ∈ cs, lineMarker c = none := by
  induction cs with
  | nil => simp
  | cons a rest ih =>
    simp only [lastLineMarker] at h
    cases hr : lastLineMarker rest with
    | some w => rw [hr] at h; cases h
    | none =>
      rw [hr] at h
      intro c hc
      rcases List.mem_cons.mp hc with rfl | hc
      · exact h
      · exact ih hr c hc

theorem holdsCopy_relocated (d : Node) (q : Path) :
    holdsCopy d (relocated d) q = satisfiesAt hasMarkedChild d q := by
  unfold holdsCopy satisfiesAt
  cases hq : nodeAt d q with
  | none => rfl
  | some m =>
    cases m with
    | text s => cases datasetLine (relocated d) q <;> rfl
    | element t as cs =>
      have hd : datasetLine (relocated d) q = getAttr (relocateAttrs as cs) "data-line" := by
        simp [datasetLine, attrsAt_relocated d q t as cs hq]
      simp only [hd, hasMarkedChild]
      cases hl : lastLineMarker cs with
      | none =>
        have hall := lastLineMarker_none_forall cs hl
        have hany : ∀ v, cs.any (fun c => decide (lineMarker c = some v)) = false := by
          intro v
          rw [List.any_eq_false]
          intro c hc
          simp [hall c hc]
        cases getAttr (relocateAttrs as cs) "data-line" with
        | none => rfl
        | some v => simp [hany v]
      | some v =>
        obtain ⟨i, c, hi, hc⟩ := lastLineMarker_some_mem cs v hl
        have hg : getAttr (relocateAttrs as cs) "data-line" = some v := by
          simp [relocateAttrs, hl, getAttr_setAttr_same]
        simp only [hg, Option.isSome_some, List.any_eq_true, decide_eq_true_eq]
        exact ⟨c, List.getElem?_mem hi, hc⟩

theorem length_selectList (P : Node → Bool) (cs : List Node) (k : Nat) :
    (selectList P cs k).length = (cs.map (fun c => (select P c).length)).sum := by
  induction cs generalizing k with
  | nil => rfl
  | cons c cs ih => simp [selectList, ih]

/-- With at most one marked child per element, the marked children of a list
are as many as the list has a last marker. -/
theorem countP_hasLineMarker (cs : List Node)
    (h : ∀ (i j : Nat) (c c1 : Node), cs[i]? = some c → cs[j]? = some c1 →
      hasLineMarker c = true → hasLineMarker c1 = true → i = j) :
    cs.countP hasLineMarker = if (lastLineMarker cs).isSome then 1 else 0 := by
  induction cs with
  | nil => rfl
  | cons a rest ih =>
    have hrest : ∀ (i j : Nat) (c c1 : Node), rest[i]? = some c → rest[j]? = some c1 →
        hasLineMarker c = true → hasLineMarker c1 = true → i = j := by
      intro i j c c1 hi hj hc hc1
      have := h (i + 1) (j + 1) c c1 (by simpa using hi) (by simpa using hj) hc hc1
      omega
    by_cases ha : hasLineMarker a = true
    · have hnone : ∀ c ∈ rest, lineMarker c = none := by
        intro c hc
        obtain ⟨j, hj⟩ := List.getElem?_of_mem hc
        cases hm : lineMarker c with
        | none => rfl
        | some v =>
          have := h 0 (j + 1) a c (by simp) (by simpa using hj) ha (by simp [hasLineMarker, hm])
          omega
      have hl := lastLineMarker_eq_none rest hnone
      have hc0 : rest.countP hasLineMarker = 0 := by
        rw [List.countP_eq_zero]
        intro c hc
        simp [hasLineMarker, hnone c hc]
      have ha1 : (lineMarker a).isSome = true := ha
      simp [List.countP_cons, ha, hc0, lastLineMarker, hl, ha1]
    · have ha1 : lineMarker a = none := by
        cases hm : lineMarker a with
        | none => rfl
        | some v => simp [hasLineMarker, hm] at ha
      rw [List.countP_cons_of_neg _ _ ha, ih hrest]
      simp only [lastLineMarker, ha1]
      cases lastLineMarker rest <;> rfl

theorem sum_map_add_ite (cs : List Node) (f : Node → Nat) :
    (cs.map (fun c => (if hasLineMarker c = true then 1 else 0) + f c)).sum =
      cs.countP hasLineMarker + (cs.map f).sum := by
  induction cs with
  | nil => rfl
  | cons a rest ih =>
    by_cases ha : hasLineMarker a = true
    · simp only [List.map_cons, List.sum_cons, ih, List.countP_cons_of_pos _ _ ha, ha, if_true]
      omega
    · simp only [List.map_cons, List.sum_cons, ih, List.countP_cons_of_neg _ _ ha, ha]
      simp only [Bool.false_eq_true, if_false]
      omega

/-- With at most one marked child per element there are as many marked code
elements below the top as elements with a marked child. -/
theorem length_select_hasLineMarker (n : Node) :
    (∀ (q : Path) (t : String) (as : Attrs) (cs : List Node),
      nodeAt n q = some (.element t as cs) →
      ∀ (i j : Nat) (c c1 : Node), cs[i]? = some c → cs[j]? = some c1 →
        hasLineMarker c = true → hasLineMarker c1 = true → i = j) →
    (select hasLineMarker n).length =
      (if hasLineMarker n = true then 1 else 0) + (select hasMarkedChild n).length := by
  induction n using Node.induction with
  | text s => intro _; rfl
  | element t as cs ih =>
    intro U
    have hchild : ∀ c ∈ cs, (select hasLineMarker c).length =
        (if hasLineMarker c = true then 1 else 0) + (select hasMarkedChild c).length := by
      intro c hc
      obtain ⟨i, hi⟩ := List.getElem?_of_mem hc
      apply ih c hc
      intro q t1 as1 cs1 hq
      exact U (i :: q) t1 as1 cs1 (by simp [nodeAt, hi, hq])
    have hcount := countP_hasLineMarker cs (U [] t as cs rfl)
    have hsum : (cs.map (fun c => (select hasLineMarker c).length)).sum =
        cs.countP hasLineMarker + (cs.map (fun c => (select hasMarkedChild c).length)).sum := by
      rw [← sum_map_add_ite]
      congr 1
      exact List.map_congr_left hchild
    have hA : (select hasMarkedChild (.element t as cs)).length =
        (if (lastLineMarker cs).isSome then 1 else 0) +
          (cs.map (fun c => (select hasMarkedChild c).length)).sum := by
      simp only [select, List.length_append, length_selectList, hasMarkedChild]
      by_cases hb : (lastLineMarker cs).isSome = true <;> simp [hb]
    have hN : (select hasLineMarker (.element t as cs)).length =
        (if hasLineMarker (.element t as cs) = true then 1 else 0) +
          (cs.map (fun c => (select hasLineMarker c).length)).sum := by
      simp only [select, List.length_append, length_selectList]
      by_cases hb : hasLineMarker (.element t as cs) = true <;> simp [hb]
    rw [hN, hA, hsum, hcount]

theorem one_marked_child_of_nodup (d : Node)
    (hdistinct : ((select hasLineMarker d).map parentElement).Nodup) :
    ∀ (q : Path) (t : String) (as : Attrs) (cs : List Node),
      nodeAt d q = some (.element t as cs) →
      ∀ (i j : Nat) (c c1 : Node), cs[i]? = some c → cs[j]? = some c1 →
        hasLineMarker c = true → hasLineMarker c1 = true → i = j := by
  intro q t as cs hq i j c c1 hi hj hc hc1
  have hmem : ∀ (k : Nat) (x : Node), cs[k]? = some x → hasLineMarker x = true →
      (q ++ [k]) ∈ select hasLineMarker d := by
    intro k x hk hx
    have hnode : nodeAt d (q ++ [k]) = some x := by
      simp [nodeAt_append, hq, nodeAt, hk]
    rw [mem_select_iff]
    cases x with
    | text s => simp [hasLineMarker, lineMarker] at hx
    | element tx asx csx => exact ⟨tx, asx, csx, hnode, hx⟩
  have hinj := List.inj_on_of_nodup_map hdistinct (hmem i c hi hc) (hmem j c1 hj hc1)
    (by rw [parentElement_append_singleton, parentElement_append_singleton])
  have := List.append_cancel_left hinj
  simpa using this

/-- C3, counterexample: two code elements with a marker share one `pre`; after
the run one element, the `pre` at `[0, 0]`, holds a copied marker and is the
only element whose attributes changed: one element, not two. -/
theorem C3_counterexample :
    (select hasLineMarker pageTwoMarkers).length = 2 ∧
      ∃ d1, fixCodeBlockAttributes pageTwoMarkers = .ok d1 ∧
        (select isElement d1).filter (holdsCopy pageTwoMarkers d1) = [[0, 0]] ∧
        (select isElement d1).filter (fun q => attrsAt d1 q ≠ attrsAt pageTwoMarkers q) =
          [[0, 0]] :=
  ⟨by decide,
    .element "html" [] [.element "body" [] [
      .element "pre" [("data-line", "2")] [
        .element "code" [("data-line", "1")] [.text "a"],
        .element "code" [("data-line", "2")] [.text "b"]],
      .element "p" [] [.element "code" [] [.text "c"]]]],
    by decide, by decide, by decide⟩

/-- C3, amended: in a document where every code element has a parent element
and no two code elements with a non-empty `data-line` have the same parent, the
relocator completes; with N such code elements, exactly N elements hold a copied
marker after the run, and every element that holds none keeps its attribute
list as it was. -/
theorem C3_as_many_parents_as_marked_code (d : Node)
    (hparent : ∀ p ∈ getElementsByTagName d "code", parentElement p ≠ none)
    (hdistinct : ((select hasLineMarker d).map parentElement).Nodup) :
    ∃ d1, fixCodeBlockAttributes d = .ok d1 ∧
      ((select isElement d1).filter (holdsCopy d d1)).length =
        (select hasLineMarker d).length ∧
      ∀ q, holdsCopy d d1 q = false → attrsAt d1 q = attrsAt d q := by
  refine ⟨relocated d, fixCodeBlockAttributes_of_parents d hparent, ?_, ?_⟩
  · have ha : select isElement (relocated d) = select isElement d :=
      select_relocated isElement (fun _ _ _ => rfl) d
    have hb : holdsCopy d (relocated d) = satisfiesAt hasMarkedChild d := by
      funext q
      exact holdsCopy_relocated d q
    have hc : (fun m => isElement m && hasMarkedChild m) = hasMarkedChild := by
      funext m
      cases m <;> simp [isElement, hasMarkedChild]
    have hroot : hasLineMarker d = false := by
      simp [hasLineMarker, lineMarker_eq_none_of_parents d hparent]
    rw [ha, hb, filter_select, hc,
      length_select_hasLineMarker d (one_marked_child_of_nodup d hdistinct), hroot]
    simp
  · intro q hq
    rw [holdsCopy_relocated] at hq
    unfold satisfiesAt at hq
    cases hn : nodeAt d q with
    | none => simp [attrsAt, nodeAt_relocated, hn]
    | some m =>
      rw [hn] at hq
      cases m with
      | text s => simp [attrsAt, nodeAt_relocated, hn, relocated]
      | element t as cs =>
        have hl : lastLineMarker cs = none := by
          cases hl : lastLineMarker cs with
          | none => rfl
          | some v => simp [hasMarkedChild, hl] at hq
        rw [attrsAt_relocated d q t as cs hn]
        simp [relocateAttrs, hl, attrsAt, hn]

/-- C3, witness: the page with two listings. -/
theorem C3_witness :
    ∃ d1, fixCodeBlockAttributes pageTwoListings = .ok d1 ∧
      ((select isElement d1).filter (holdsCopy pageTwoListings d1)).length =
        (select hasLineMarker pageTwoListings).length ∧
      ∀ q, holdsCopy pageTwoListings d1 q = false → attrsAt d1 q = attrsAt pageTwoListings q :=
  C3_as_many_parents_as_marked_code pageTwoListings (by decide) (by decide)

end PostCustomizations
